import Mathlib

/-!
# Verification of the claimable-fee aggregation and refresh pipeline

Shallow embedding of the core of the repository: the server-side
aggregation of claimable fees (`src/server/contracts.ts`), the route-level
result cache (`src/server/routes.ts`), and the client-side refresh/poll
controller (`refreshClaimableRewards` in the Home page component).

Network effects (multicall RPC, metadata contract reads, HTTP fetches) are
modelled as explicit oracle parameters: a function supplying the response
the network would have produced.  JavaScript `Map` objects are modelled as
association lists with first-occurrence update and insertion-order
iteration, matching `Map`'s documented semantics.
-/

namespace Claim2

section Model

variable {V : Type}

/-- `CLANKER_FEE_LOCKER_ADDRESS` from `src/server/contracts.ts`. -/
def CLANKER_FEE_LOCKER_ADDRESS : String := "0xf3622742b1e446d92e45e22923ef11c2fcd55d68"

/-- `WETH_ADDRESS` from `src/server/contracts.ts`. -/
def WETH_ADDRESS : String := "0x4200000000000000000000000000000000000006"

/-- `MULTICALL_BATCH_SIZE` from `src/server/contracts.ts`. -/
def MULTICALL_BATCH_SIZE : Nat := 500

/-- Model of JavaScript `Map.prototype.set`: update the existing entry in
place (keeping its position) when the key is present, else append. -/
def mapSet : List (String × V) → String → V → List (String × V)
  | [], k, v => [(k, v)]
  | p :: t, k, v => if p.1 = k then (k, v) :: t else p :: mapSet t k v

/-- Model of JavaScript `Map.prototype.get` (as an `Option`). -/
def mapGet (m : List (String × V)) (k : String) : Option V :=
  (m.find? (fun p => p.1 = k)).map Prod.snd

/-- Model of JavaScript `Map.prototype.delete`. -/
def mapDelete (m : List (String × V)) (k : String) : List (String × V) :=
  m.filter (fun p => ¬ (p.1 = k))

/-- Keys of the map, in iteration order. -/
def mapKeys (m : List (String × V)) : List String := m.map Prod.fst

/-! ## Batched balance reader (`getFeesForAddressesMulticall`) -/

/-- Per-item outcome of a multicall issued with `allowFailure: true`:
either a raw `uint256` result or a per-item failure. -/
inductive CallResult where
  | success (v : Nat)
  | failure
deriving Repr, DecidableEq

/-- The amount the reader records for one multicall item: the raw result on
success, zero on per-item failure (lines 125-130 of `contracts.ts`). -/
def amountOfResult : CallResult → Nat
  | .success v => v
  | .failure => 0

/-- Fold a list of key/value pairs into a map with `Map.prototype.set`,
in order: the shape of the `for` loops writing `results` in
`getFeesForAddressesMulticall`. -/
def mergeInto (m0 : List (String × Nat)) (l : List (String × Nat)) : List (String × Nat) :=
  l.foldl (fun m p => mapSet m p.1 p.2) m0

/-- The response of one `publicClient.multicall` round trip: either a list
of per-item outcomes, or a transport-level throw. -/
abbrev MulticallResponse := Except Unit (List CallResult)

/-- `getFeesForAddressesMulticall` from `src/server/contracts.ts`
(lines 96-140), with the network round trip supplied as the already
received response `mc`.  An empty address list returns the empty map
before any network call; a transport-level error assigns zero to every
address of the chunk; otherwise the i-th outcome is paired with the i-th
address, recording the raw result on success and zero on item failure. -/
def getFeesForAddressesMulticall (mc : MulticallResponse)
    (tokenAddresses : List String) : List (String × Nat) :=
  if tokenAddresses.isEmpty then []
  else
    match mc with
    | .ok rs => mergeInto [] ((rs.zip tokenAddresses).map (fun p => (p.2, amountOfResult p.1)))
    | .error _ => mergeInto [] (tokenAddresses.map (fun a => (a, 0)))

/-- The chunking loop of `getTotalClaimable` (lines 168-180):
`allAddresses.slice(i, i + MULTICALL_BATCH_SIZE)` for `i = 0, 500, 1000, …`. -/
def chunkList (l : List String) : List (List String) :=
  match l with
  | [] => []
  | x :: xs => ((x :: xs).take MULTICALL_BATCH_SIZE) :: chunkList ((x :: xs).drop MULTICALL_BATCH_SIZE)
termination_by l.length
decreasing_by simp [MULTICALL_BATCH_SIZE]; omega

/-! ## Aggregation service (`getTotalClaimable`) -/

/-- Token metadata as resolved by `getTokenMetadata`. -/
structure TokenMetadata where
  symbol : String
  decimals : Nat
deriving Repr, DecidableEq

/-- `RewardAsset` from `@shared/schema`, as populated by
`getTotalClaimable`.  The raw amount is kept as a natural number (the
source stores `amount.toString()` of a non-negative `bigint`). -/
structure RewardAsset where
  address : String
  symbol : String
  decimals : Nat
  amount : Nat
  formattedAmount : String
deriving Repr, DecidableEq

/-- `TotalClaimable` from `src/server/contracts.ts` (lines 89-92). -/
structure TotalClaimable where
  rewards : List RewardAsset
  tokenAddresses : List String
deriving Repr, DecidableEq

/-- The `batchResults.forEach` body of `getTotalClaimable` (lines 174-179):
fold one chunk's results into the accumulated `(feesPerAddress,
addressesWithFees)` pair, keeping only strictly positive amounts. -/
def collectPositive (acc : List (String × Nat) × List String)
    (batchResults : List (String × Nat)) : List (String × Nat) × List String :=
  batchResults.foldl
    (fun acc p => if 0 < p.2 then (mapSet acc.1 p.1 p.2, acc.2 ++ [p.1]) else acc) acc

/-- The step of `getTotalClaimable`'s chunk loop (lines 168-180): run one
batch through the reader and collect its positive results. -/
def chunkStep (chain : String → List String → MulticallResponse) (feeOwner : String)
    (acc : List (String × Nat) × List String) (batch : List String) :
    List (String × Nat) × List String :=
  collectPositive acc (getFeesForAddressesMulticall (chain feeOwner batch) batch)

/-- `getTotalClaimable` from `src/server/contracts.ts` (lines 156-204).
The chain is an oracle mapping the fee owner and one chunk of token
addresses to the multicall response; metadata resolution and amount
formatting are likewise injected (`getTokenMetadata` is modelled
statefully further below; its values do not affect the properties proved
here). -/
def getTotalClaimable (chain : String → List String → MulticallResponse)
    (metadata : String → TokenMetadata) (fmt : Nat → Nat → String)
    (feeOwner : String) (tokenAddresses : List String) : TotalClaimable :=
  let allAddresses := tokenAddresses ++ [WETH_ADDRESS]
  let acc := (chunkList allAddresses).foldl (chunkStep chain feeOwner) ([], [])
  let rewards := acc.2.map (fun address =>
    let amount := (mapGet acc.1 address).getD 0
    let md := metadata address
    { address := address
      symbol := md.symbol
      decimals := md.decimals
      amount := amount
      formattedAmount := fmt amount md.decimals : RewardAsset })
  { rewards := rewards, tokenAddresses := acc.2 }

/-- The invariant carried by the `(feesPerAddress, addressesWithFees)`
accumulator: every collected address maps to a strictly positive amount. -/
def AccInv (acc : List (String × Nat) × List String) : Prop :=
  ∀ a ∈ acc.2, ∃ v, mapGet acc.1 a = some v ∧ 0 < v

/-- The union of the per-chunk result mappings, merged in chunk order with
`Map.prototype.set` semantics (the statement-level object of the chunking
claim; `getTotalClaimable` consumes the same per-chunk maps). -/
def mergedChunkResults (chain : String → List String → MulticallResponse)
    (feeOwner : String) (addrs : List String) : List (String × Nat) :=
  (chunkList addrs).foldl
    (fun m batch => mergeInto m (getFeesForAddressesMulticall (chain feeOwner batch) batch)) []

/-- `s.toLowerCase()` as used for cache keys: character-wise lower-casing
(the keys involved are ASCII addresses).  Defined structurally so that it
evaluates inside the kernel. -/
def toLowerCase (s : String) : String := ⟨s.data.map Char.toLower⟩

/-! ## Token metadata resolver (`getTokenMetadata`) -/

/-- Response of the two parallel ERC-20 reads (`symbol` and `decimals`):
the `Promise.all` rejects as soon as either contract call fails. -/
abbrev MetadataResponse := Except Unit (String × Nat)

/-- `getTokenMetadata` from `src/server/contracts.ts` (lines 56-87), with
the network reads supplied by `oracle` and the module-level
`tokenMetadataCache` passed in and returned explicitly. -/
def getTokenMetadata (oracle : String → MetadataResponse)
    (cache : List (String × TokenMetadata)) (address : String) :
    TokenMetadata × List (String × TokenMetadata) :=
  match mapGet cache (toLowerCase address) with
  | some cached => (cached, cache)
  | none =>
    if toLowerCase address = toLowerCase WETH_ADDRESS then
      let metadata : TokenMetadata := { symbol := "WETH", decimals := 18 }
      (metadata, mapSet cache (toLowerCase address) metadata)
    else
      match oracle address with
      | .ok (symbol, decimals) =>
        let metadata : TokenMetadata := { symbol := symbol, decimals := decimals }
        (metadata, mapSet cache (toLowerCase address) metadata)
      | .error _ => ({ symbol := address.take 8, decimals := 18 }, cache)

/-! ## Result cache and routes (`src/server/routes.ts`) -/

/-- `TokensResponse` as served by the route and consumed by the client
controller: the token list is opaque here, only the claimable snapshot is
inspected. -/
structure TokensResponse where
  tokens : List String
  totalClaimable : TotalClaimable
deriving Repr, DecidableEq

/-- The empty body `{ tokens: [], totalClaimable: { rewards: [],
tokenAddresses: [] } }` sent when no wallet is given or the upstream feed
fails. -/
def emptyTokensResponse : TokensResponse :=
  { tokens := [], totalClaimable := { rewards := [], tokenAddresses := [] } }

/-- `CACHE_TTL` from `src/server/routes.ts`. -/
def CACHE_TTL : Nat := 60000

/-- A `tokenCache` entry: `{ data, timestamp }`. -/
structure CacheEntry where
  data : TokensResponse
  timestamp : Nat
deriving Repr, DecidableEq

/-- The module-level `tokenCache` map. -/
abbrev TokenCache := List (String × CacheEntry)

/-- The `GET /api/tokens` handler from `src/server/routes.ts` (lines
14-46).  `fetchTokens` stands for `fetchTokensByCreator`, `now` for
`Date.now()`.  Returns the response body, the cache after the request,
and whether the upstream feed was consulted. -/
def handleGetTokens (fetchTokens : String → Except Unit TokensResponse) (now : Nat)
    (walletAddress : Option String) (forceRefresh : Bool) (cache : TokenCache) :
    TokensResponse × TokenCache × Bool :=
  match walletAddress with
  | none => (emptyTokensResponse, cache, false)
  | some wallet =>
    let cacheAfterFlag := if forceRefresh then mapDelete cache (toLowerCase wallet) else cache
    let hit : Option CacheEntry :=
      if forceRefresh then none
      else
        match mapGet cache (toLowerCase wallet) with
        | some cached => if now - cached.timestamp < CACHE_TTL then some cached else none
        | none => none
    match hit with
    | some cached => (cached.data, cache, false)
    | none =>
      match fetchTokens wallet with
      | .ok data =>
        (data, mapSet cacheAfterFlag (toLowerCase wallet) { data := data, timestamp := now }, true)
      | .error _ => (emptyTokensResponse, cacheAfterFlag, true)

/-- The `POST /api/cache/invalidate` handler (lines 57-63): evicts the
entry outright; a missing wallet address leaves the cache untouched. -/
def handleInvalidate (walletAddress : Option String) (cache : TokenCache) : TokenCache :=
  match walletAddress with
  | some wallet => mapDelete cache (toLowerCase wallet)
  | none => cache

/-! ## Refresh/poll controller (`refreshClaimableRewards`) -/

/-- The options object of `refreshClaimableRewards`, with the source's
default values (`forceRefresh = false`, `pollForZero = false`,
`maxRetries = 6`, `intervalMs = 2500`). -/
structure RefreshOptions where
  forceRefresh : Bool := false
  pollForZero : Bool := false
  maxRetries : Nat := 6
  intervalMs : Nat := 2500
deriving Repr, DecidableEq

/-- Client-side state touched by the controller: the `refreshLockRef`
single-flight guard and the React Query cache entry for
`['/api/tokens', wallet.address]` (the last stored result). -/
structure RefreshState where
  refreshLock : Bool
  queryData : Option TokensResponse
deriving Repr, DecidableEq

/-- Observable effects of one controller run: fetches (with the
force-refresh flag they forward) and inter-attempt waits (with their
duration in milliseconds). -/
inductive RefreshEvent where
  | fetchTokens (forceRefresh : Bool)
  | wait (ms : Nat)
deriving Repr, DecidableEq

/-- Outcome of the `try` block's loop: either a fetch threw (the
exception reaches the `catch`) or the loop returned.  Both carry the
final React Query cache content and the event trace. -/
inductive LoopOutcome where
  | thrown (qd : Option TokensResponse) (events : List RefreshEvent)
  | returned (result : Option TokensResponse) (qd : Option TokensResponse)
      (events : List RefreshEvent)
deriving Repr, DecidableEq

/-- The `for (let attempt = 1; attempt <= attempts; attempt++)` loop of
`refreshClaimableRewards` (part_000 lines 117-161).  `fetch i` is the
response of the i-th attempt's `fetch`; `remaining` counts the attempts
still allowed (`attempts - attempt + 1` in the source's terms), so the
source's `attempt < attempts` wait condition fires exactly when `0 < r`. -/
def refreshLoop (fetch : Nat → Except Unit TokensResponse) (pollForZero : Bool)
    (forceRefresh : Bool) (intervalMs : Nat) :
    Nat → Nat → Option TokensResponse → Option TokensResponse → LoopOutcome
  | _, 0, qd, last => .returned last qd []
  | attempt, r + 1, qd, _ =>
    match fetch attempt with
    | .error _ => .thrown qd [.fetchTokens forceRefresh]
    | .ok data =>
      if pollForZero then
        if data.totalClaimable.rewards.length = 0 then
          .returned (some data) (some data) [.fetchTokens forceRefresh]
        else
          let evs0 : List RefreshEvent :=
            if 0 < r then [.fetchTokens forceRefresh, .wait intervalMs]
            else [.fetchTokens forceRefresh]
          match refreshLoop fetch pollForZero forceRefresh intervalMs (attempt + 1) r
              (some data) (some data) with
          | .thrown qd' evs => .thrown qd' (evs0 ++ evs)
          | .returned res qd' evs => .returned res qd' (evs0 ++ evs)
      else
        .returned (some data) (some data) [.fetchTokens forceRefresh]

/-- `refreshClaimableRewards` from part_000 (lines 92-169): the missing
wallet early return, the single-flight guard check, the clear of the
previously stored query data, the loop, and the `finally` block that
always releases the guard.  Returns the promise's value, the final state,
and the trace of network and wait events. -/
def refreshClaimableRewards (fetch : Nat → Except Unit TokensResponse)
    (walletAddress : Option String) (opts : RefreshOptions) (st : RefreshState) :
    Option TokensResponse × RefreshState × List RefreshEvent :=
  match walletAddress with
  | none => (none, st, [])
  | some _ =>
    if st.refreshLock then (none, st, [])
    else
      let attempts := if opts.pollForZero then opts.maxRetries else 1
      match refreshLoop fetch opts.pollForZero opts.forceRefresh opts.intervalMs 1 attempts
          none none with
      | .thrown qd evs => (none, { refreshLock := false, queryData := qd }, evs)
      | .returned res qd evs => (res, { refreshLock := false, queryData := qd }, evs)

/-- Number of fetches in a trace. -/
def countFetches (evs : List RefreshEvent) : Nat :=
  evs.countP (fun e => match e with | .fetchTokens _ => true | _ => false)

/-- Number of inter-attempt waits in a trace. -/
def countWaits (evs : List RefreshEvent) : Nat :=
  evs.countP (fun e => match e with | .wait _ => true | _ => false)

/-- The event trace of a loop outcome. -/
def loopEvents : LoopOutcome → List RefreshEvent
  | .thrown _ evs => evs
  | .returned _ _ evs => evs

/-- A snapshot with a single nonzero reward, used in concrete runs. -/
def oneRewardResponse : TokensResponse where
  tokens := []
  totalClaimable :=
    { rewards := [{ address := "0xa", symbol := "A", decimals := 18, amount := 5,
                    formattedAmount := "5" }]
      tokenAddresses := ["0xa"] }

/-- The fetch stream of the polling scenario: a nonzero snapshot on the
first two attempts, the empty snapshot from the third on. -/
def scenarioFetch : Nat → Except Unit TokensResponse :=
  fun i => if 3 ≤ i then .ok emptyTokensResponse else .ok oneRewardResponse

/-! ## Claim-call builders (`getClaimCalldata`, `getClaimWethCalldata`) -/

/-- Return type of the two claim-call builders in `src/server/contracts.ts`. -/
structure ClaimCall where
  «to» : String
  data : String
  functionName : String
  args : String × String
deriving Repr, DecidableEq

/-- `getClaimCalldata` from `src/server/contracts.ts` (lines 206-218):
returns the fee-locker address as `to`, the function name and arguments of
the claim call, and an empty `data` string. -/
def getClaimCalldata (feeOwner : String) (tokenAddress : String) : ClaimCall :=
  { «to» := CLANKER_FEE_LOCKER_ADDRESS
    functionName := "claim"
    args := (feeOwner, tokenAddress)
    data := "" }

/-- `getClaimWethCalldata` from `src/server/contracts.ts` (lines 220-232). -/
def getClaimWethCalldata (feeOwner : String) : ClaimCall :=
  { «to» := CLANKER_FEE_LOCKER_ADDRESS
    functionName := "claim"
    args := (feeOwner, WETH_ADDRESS)
    data := "" }

end Model

/-! ## Lemmas and claim theorems -/

section Proofs

variable {V : Type}

@[simp] theorem mapGet_nil (k : String) : mapGet ([] : List (String × V)) k = none := rfl

theorem mapGet_mapSet_self (m : List (String × V)) (k : String) (v : V) :
    mapGet (mapSet m k v) k = some v := by
  induction m with
  | nil => simp [mapSet, mapGet]
  | cons p t ih =>
    by_cases h : p.1 = k
    · simp [mapSet, mapGet, h]
    · simpa [mapSet, mapGet, h] using ih

theorem mapGet_mapSet_ne (m : List (String × V)) (k k' : String) (v : V) (h : k ≠ k') :
    mapGet (mapSet m k v) k' = mapGet m k' := by
  induction m with
  | nil => simp [mapSet, mapGet, h]
  | cons p t ih =>
    by_cases hp : p.1 = k
    · have hpk' : ¬ p.1 = k' := by rw [hp]; exact h
      simp [mapSet, mapGet, hp, h, hpk']
    · by_cases hp' : p.1 = k'
      · have hk'k : ¬ (k' = k) := fun hh => h hh.symm
        simp [mapSet, mapGet, hp, hp', hk'k]
      · simp [mapSet, mapGet, hp, hp'] at ih ⊢
        exact ih

theorem mapGet_mapDelete_self (m : List (String × V)) (k : String) :
    mapGet (mapDelete m k) k = none := by
  induction m with
  | nil => simp [mapDelete, mapGet]
  | cons p t ih =>
    by_cases hp : p.1 = k
    · simpa [mapDelete, mapGet, hp] using ih
    · simpa [mapDelete, mapGet, hp] using ih

theorem mapKeys_mapSet_mem (m : List (String × V)) (k : String) (v : V)
    (hk : k ∈ mapKeys m) : mapKeys (mapSet m k v) = mapKeys m := by
  induction m with
  | nil => simp [mapKeys] at hk
  | cons p t ih =>
    by_cases hp : p.1 = k
    · simp [mapSet, mapKeys, hp]
    · have hkt : k ∈ mapKeys t := by
        rcases (by simpa [mapKeys] using hk : k = p.1 ∨ k ∈ t.map Prod.fst) with h1 | h1
        · exact absurd h1.symm hp
        · simpa [mapKeys] using h1
      simp [mapSet, mapKeys, hp]
      simpa [mapKeys] using ih hkt

theorem mapKeys_mapSet_not_mem (m : List (String × V)) (k : String) (v : V)
    (hk : k ∉ mapKeys m) : mapKeys (mapSet m k v) = mapKeys m ++ [k] := by
  induction m with
  | nil => simp [mapSet, mapKeys]
  | cons p t ih =>
    have hp : ¬ p.1 = k := by
      intro hh
      exact hk (by simp [mapKeys, hh])
    have hkt : k ∉ mapKeys t := by
      intro hh
      exact hk (by simp [mapKeys] at hh ⊢; exact Or.inr hh)
    simp [mapSet, mapKeys, hp]
    simpa [mapKeys] using ih hkt

theorem mapKeys_nodup_mapSet (m : List (String × V)) (k : String) (v : V)
    (h : (mapKeys m).Nodup) : (mapKeys (mapSet m k v)).Nodup := by
  by_cases hk : k ∈ mapKeys m
  · rw [mapKeys_mapSet_mem m k v hk]; exact h
  · rw [mapKeys_mapSet_not_mem m k v hk]
    exact List.Nodup.append h (List.nodup_singleton k) (by simpa using hk)

theorem mapGet_isSome_of_mem_keys (m : List (String × V)) (k : String)
    (h : k ∈ mapKeys m) : (mapGet m k).isSome := by
  induction m with
  | nil => simp [mapKeys] at h
  | cons p t ih =>
    by_cases hp : p.1 = k
    · simp [mapGet, hp]
    · have hkt : k ∈ mapKeys t := by
        rcases (by simpa [mapKeys] using h : k = p.1 ∨ k ∈ t.map Prod.fst) with h1 | h1
        · exact absurd h1.symm hp
        · simpa [mapKeys] using h1
      simpa [mapGet, hp] using ih hkt

theorem mem_keys_of_mapGet_isSome (m : List (String × V)) (k : String)
    (h : (mapGet m k).isSome) : k ∈ mapKeys m := by
  induction m with
  | nil => simp [mapGet] at h
  | cons p t ih =>
    by_cases hp : p.1 = k
    · show k ∈ p.1 :: mapKeys t
      simp [hp.symm]
    · show k ∈ p.1 :: mapKeys t
      have := ih (by simpa [mapGet, hp] using h)
      simp [this]

theorem chunkList_flatten (l : List String) : (chunkList l).flatten = l := by
  induction l using chunkList.induct with
  | case1 => simp [chunkList]
  | case2 x xs ih =>
    rw [chunkList]
    simp [ih, List.take_append_drop]

theorem chunkList_length_le (l : List String) :
    ∀ c ∈ chunkList l, c.length ≤ MULTICALL_BATCH_SIZE := by
  induction l using chunkList.induct with
  | case1 => simp [chunkList]
  | case2 x xs ih =>
    intro c hc
    rw [chunkList] at hc
    rcases (by simpa using hc) with h1 | h1
    · subst h1
      simpa using List.length_take_le MULTICALL_BATCH_SIZE (x :: xs)
    · exact ih c h1

theorem mapGet_mapSet_isSome (m : List (String × Nat)) (k k' : String) (v : Nat)
    (h : (mapGet m k).isSome) : (mapGet (mapSet m k' v) k).isSome := by
  by_cases hk : k' = k
  · subst hk
    simp [mapGet_mapSet_self]
  · rwa [mapGet_mapSet_ne m k' k v hk]

theorem mapGet_mergeInto_isSome_acc (l : List (String × Nat)) (m0 : List (String × Nat))
    (k : String) (h : (mapGet m0 k).isSome) : (mapGet (mergeInto m0 l) k).isSome := by
  induction l generalizing m0 with
  | nil => simpa [mergeInto]
  | cons p t ih =>
    simpa [mergeInto] using ih (mapSet m0 p.1 p.2) (mapGet_mapSet_isSome m0 k p.1 p.2 h)

theorem mapGet_mergeInto_isSome_of_mem (l : List (String × Nat)) (m0 : List (String × Nat))
    (k : String) (h : k ∈ l.map Prod.fst) : (mapGet (mergeInto m0 l) k).isSome := by
  induction l generalizing m0 with
  | nil => simp at h
  | cons p t ih =>
    rw [List.map_cons, List.mem_cons] at h
    rcases h with h1 | h1
    · subst h1
      exact mapGet_mergeInto_isSome_acc t (mapSet m0 p.1 p.2) p.1
        (by simp [mapGet_mapSet_self])
    · simpa [mergeInto] using ih (mapSet m0 p.1 p.2) h1

theorem mapGet_mergeInto_not_mem (l : List (String × Nat)) (m0 : List (String × Nat))
    (k : String) (h : k ∉ l.map Prod.fst) : mapGet (mergeInto m0 l) k = mapGet m0 k := by
  induction l generalizing m0 with
  | nil => simp [mergeInto]
  | cons p t ih =>
    have hp : p.1 ≠ k := by
      intro hh
      exact h (by simp [hh])
    have ht : k ∉ t.map Prod.fst := by
      intro hh
      exact h (by simp [hh])
    rw [show mergeInto m0 (p :: t) = mergeInto (mapSet m0 p.1 p.2) t from rfl,
      ih (mapSet m0 p.1 p.2) ht, mapGet_mapSet_ne m0 p.1 k p.2 hp]

theorem mapGet_mergeInto_of_nodup (l : List (String × Nat)) (m0 : List (String × Nat))
    (k : String) (v : Nat) (hnd : (l.map Prod.fst).Nodup) (hmem : (k, v) ∈ l) :
    mapGet (mergeInto m0 l) k = some v := by
  induction l generalizing m0 with
  | nil => simp at hmem
  | cons p t ih =>
    rw [List.map_cons, List.nodup_cons] at hnd
    rcases List.mem_cons.mp hmem with h1 | h1
    · subst h1
      rw [show mergeInto m0 ((k, v) :: t) = mergeInto (mapSet m0 k v) t from rfl,
        mapGet_mergeInto_not_mem t (mapSet m0 k v) k hnd.1, mapGet_mapSet_self]
    · exact ih (mapSet m0 p.1 p.2) hnd.2 h1

theorem mapKeys_nodup_mergeInto (l : List (String × Nat)) (m0 : List (String × Nat))
    (h : (mapKeys m0).Nodup) : (mapKeys (mergeInto m0 l)).Nodup := by
  induction l generalizing m0 with
  | nil => simpa [mergeInto]
  | cons p t ih =>
    simpa [mergeInto] using ih (mapSet m0 p.1 p.2) (mapKeys_nodup_mapSet m0 p.1 p.2 h)

/-- Every address of a chunk receives an amount, whether the whole
multicall throws or individual items fail, as long as the response (when
one arrives) has one outcome per request. -/
theorem getFees_covers (mc : MulticallResponse) (tokenAddresses : List String)
    (hlen : ∀ rs, mc = .ok rs → rs.length = tokenAddresses.length) :
    ∀ a ∈ tokenAddresses, (mapGet (getFeesForAddressesMulticall mc tokenAddresses) a).isSome := by
  intro a ha
  have hne : tokenAddresses.isEmpty = false := by
    cases tokenAddresses with
    | nil => simp at ha
    | cons x xs => simp
  match mc with
  | .error e =>
    rw [getFeesForAddressesMulticall]
    simp only [hne]
    exact mapGet_mergeInto_isSome_of_mem _ [] a (by simpa using ha)
  | .ok rs =>
    rw [getFeesForAddressesMulticall]
    simp only [hne]
    apply mapGet_mergeInto_isSome_of_mem _ [] a
    have hkeys : ((rs.zip tokenAddresses).map (fun p => (p.2, amountOfResult p.1))).map Prod.fst
        = (rs.zip tokenAddresses).map Prod.snd := by
      simp [List.map_map]
    rw [hkeys, List.map_snd_zip rs tokenAddresses (by rw [hlen rs rfl])]
    exact ha

/-- Keys of a chunk's result map carry no duplicates: each address is
assigned exactly one amount. -/
theorem getFees_keys_nodup (mc : MulticallResponse) (tokenAddresses : List String) :
    (mapKeys (getFeesForAddressesMulticall mc tokenAddresses)).Nodup := by
  match mc with
  | .ok rs =>
    rw [getFeesForAddressesMulticall]
    by_cases hne : tokenAddresses.isEmpty
    · simp [hne, mapKeys]
    · simp only [hne]
      exact mapKeys_nodup_mergeInto _ [] (by simp [mapKeys])
  | .error e =>
    rw [getFeesForAddressesMulticall]
    by_cases hne : tokenAddresses.isEmpty
    · simp [hne, mapKeys]
    · simp only [hne]
      exact mapKeys_nodup_mergeInto _ [] (by simp [mapKeys])

theorem collectPositive_inv (l : List (String × Nat))
    (acc : List (String × Nat) × List String) (h : AccInv acc) :
    AccInv (collectPositive acc l) := by
  induction l generalizing acc with
  | nil => simpa [collectPositive]
  | cons p t ih =>
    have hstep : AccInv (if 0 < p.2 then (mapSet acc.1 p.1 p.2, acc.2 ++ [p.1]) else acc) := by
      by_cases hv : 0 < p.2
      · simp only [hv, if_pos]
        intro a ha
        by_cases hap : a = p.1
        · subst hap
          exact ⟨p.2, mapGet_mapSet_self acc.1 p.1 p.2, hv⟩
        · rcases (by simpa using ha) with h1 | h1
          · obtain ⟨v, hva, hvpos⟩ := h a h1
            exact ⟨v, by rw [mapGet_mapSet_ne acc.1 p.1 a p.2 (fun hh => hap hh.symm)]; exact hva, hvpos⟩
          · exact absurd h1 hap
      · simpa [hv]
    have : collectPositive acc (p :: t)
        = collectPositive (if 0 < p.2 then (mapSet acc.1 p.1 p.2, acc.2 ++ [p.1]) else acc) t := by
      by_cases hv : 0 < p.2 <;> simp [collectPositive, hv]
    rw [this]
    exact ih _ hstep

theorem chunkFold_inv (chain : String → List String → MulticallResponse) (feeOwner : String)
    (chunks : List (List String)) (acc : List (String × Nat) × List String) (h : AccInv acc) :
    AccInv (chunks.foldl (chunkStep chain feeOwner) acc) := by
  induction chunks generalizing acc with
  | nil => simpa
  | cons b rest ih =>
    exact ih _ (collectPositive_inv _ acc h)

theorem collectPositive_mem_mono (l : List (String × Nat))
    (acc : List (String × Nat) × List String) (a : String) (h : a ∈ acc.2) :
    a ∈ (collectPositive acc l).2 := by
  induction l generalizing acc with
  | nil => simpa [collectPositive]
  | cons p t ih =>
    have : collectPositive acc (p :: t)
        = collectPositive (if 0 < p.2 then (mapSet acc.1 p.1 p.2, acc.2 ++ [p.1]) else acc) t := by
      by_cases hv : 0 < p.2 <;> simp [collectPositive, hv]
    rw [this]
    apply ih
    by_cases hv : 0 < p.2 <;> simp [hv, h]

theorem collectPositive_mem_of_pos (l : List (String × Nat))
    (acc : List (String × Nat) × List String) (a : String) (v : Nat)
    (hmem : (a, v) ∈ l) (hv : 0 < v) : a ∈ (collectPositive acc l).2 := by
  induction l generalizing acc with
  | nil => simp at hmem
  | cons p t ih =>
    have hrw : collectPositive acc (p :: t)
        = collectPositive (if 0 < p.2 then (mapSet acc.1 p.1 p.2, acc.2 ++ [p.1]) else acc) t := by
      by_cases hv' : 0 < p.2 <;> simp [collectPositive, hv']
    rcases List.mem_cons.mp hmem with h1 | h1
    · subst h1
      rw [hrw]
      simp only [hv, if_pos]
      exact collectPositive_mem_mono t _ a (by simp)
    · rw [hrw]
      exact ih _ h1

theorem chunkFold_mem_mono (chain : String → List String → MulticallResponse) (feeOwner : String)
    (chunks : List (List String)) (acc : List (String × Nat) × List String) (a : String)
    (h : a ∈ acc.2) : a ∈ (chunks.foldl (chunkStep chain feeOwner) acc).2 := by
  induction chunks generalizing acc with
  | nil => simpa
  | cons b rest ih =>
    exact ih _ (collectPositive_mem_mono _ acc a h)

/-- Under an oracle reporting a positive fee for every queried address,
a chunk's result map is exactly `batch.map (fun x => (x, 1))`
(before `Map` deduplication). -/
theorem getFees_all_success_one (batch : List String) (hne : batch ≠ []) :
    getFeesForAddressesMulticall (.ok (batch.map fun _ => CallResult.success 1)) batch
      = mergeInto [] (batch.map (fun x => (x, 1))) := by
  rw [getFeesForAddressesMulticall]
  have hbe : batch.isEmpty = false := by
    cases batch with
    | nil => exact absurd rfl hne
    | cons x xs => simp
  simp only [hbe]
  have hzip : (batch.map fun _ => CallResult.success 1).zip batch
      = batch.map (fun x => (CallResult.success 1, x)) := by
    have := List.zip_map' (fun _ => CallResult.success 1) id batch
    simpa using this
  rw [hzip, List.map_map]
  congr 1

theorem mem_of_mapGet_eq_some (m : List (String × Nat)) (k : String) (v : Nat)
    (h : mapGet m k = some v) : (k, v) ∈ m := by
  induction m with
  | nil => simp [mapGet] at h
  | cons p t ih =>
    by_cases hp : p.1 = k
    · simp [mapGet, hp] at h
      have : p = (k, v) := by
        cases p
        simp_all
      simp [this]
    · simp [mapGet, hp] at h
      exact List.mem_cons_of_mem p (ih (by simpa [mapGet] using h))

theorem mem_mapSet_cases (m : List (String × Nat)) (k : String) (v : Nat)
    (p : String × Nat) (h : p ∈ mapSet m k v) : p ∈ m ∨ p = (k, v) := by
  induction m with
  | nil => simpa [mapSet] using h
  | cons q t ih =>
    by_cases hq : q.1 = k
    · rcases (by simpa [mapSet, hq] using h) with h1 | h1
      · exact Or.inr h1
      · exact Or.inl (List.mem_cons_of_mem q h1)
    · rcases (by simpa [mapSet, hq] using h) with h1 | h1
      · exact Or.inl (by simp [h1])
      · rcases ih h1 with h2 | h2
        · exact Or.inl (List.mem_cons_of_mem q h2)
        · exact Or.inr h2

theorem mem_mergeInto_cases (l : List (String × Nat)) (m0 : List (String × Nat))
    (p : String × Nat) (h : p ∈ mergeInto m0 l) : p ∈ m0 ∨ p ∈ l := by
  induction l generalizing m0 with
  | nil => exact Or.inl (by simpa [mergeInto] using h)
  | cons q t ih =>
    rcases ih (mapSet m0 q.1 q.2) (by simpa [mergeInto] using h) with h1 | h1
    · rcases mem_mapSet_cases m0 q.1 q.2 p h1 with h2 | h2
      · exact Or.inl h2
      · exact Or.inr (by simp [h2])
    · exact Or.inr (List.mem_cons_of_mem q h1)

theorem mergeInto_keys_sub (l : List (String × Nat)) (m0 : List (String × Nat)) :
    ∀ k ∈ mapKeys m0, k ∈ mapKeys (mergeInto m0 l) := by
  intro k hk
  exact mem_keys_of_mapGet_isSome _ k
    (mapGet_mergeInto_isSome_acc l m0 k (mapGet_isSome_of_mem_keys m0 k hk))

theorem mergedChunk_fold_isSome (chain : String → List String → MulticallResponse)
    (feeOwner : String)
    (hlen : ∀ b rs, chain feeOwner b = .ok rs → rs.length = b.length)
    (chunks : List (List String)) (m : List (String × Nat)) (a : String)
    (h : (mapGet m a).isSome ∨ ∃ b ∈ chunks, a ∈ b) :
    (mapGet (chunks.foldl
      (fun m batch => mergeInto m (getFeesForAddressesMulticall (chain feeOwner batch) batch)) m)
      a).isSome := by
  induction chunks generalizing m with
  | nil =>
    rcases h with h1 | ⟨b, hb, _⟩
    · simpa using h1
    · simp at hb
  | cons b rest ih =>
    rcases h with h1 | ⟨b', hb', ha'⟩
    · exact ih _ (Or.inl (mapGet_mergeInto_isSome_acc _ m a h1))
    · rcases List.mem_cons.mp hb' with h2 | h2
      · subst h2
        apply ih
        left
        have hcov : (mapGet (getFeesForAddressesMulticall (chain feeOwner b') b') a).isSome :=
          getFees_covers (chain feeOwner b') b' (fun rs hrs => hlen b' rs hrs) a ha'
        exact mapGet_mergeInto_isSome_of_mem _ m a
          (mem_keys_of_mapGet_isSome _ a hcov)
      · exact ih _ (Or.inr ⟨b', h2, ha'⟩)

theorem mergedChunk_fold_keys_nodup (chain : String → List String → MulticallResponse)
    (feeOwner : String) (chunks : List (List String)) (m : List (String × Nat))
    (h : (mapKeys m).Nodup) :
    (mapKeys (chunks.foldl
      (fun m batch => mergeInto m (getFeesForAddressesMulticall (chain feeOwner batch) batch)) m)).Nodup := by
  induction chunks generalizing m with
  | nil => simpa
  | cons b rest ih =>
    exact ih _ (mapKeys_nodup_mergeInto _ m h)

theorem chunkFold_mem_of_oracle_pos (chain : String → List String → MulticallResponse)
    (feeOwner : String)
    (h : ∀ b, chain feeOwner b = .ok (b.map fun _ => CallResult.success 1))
    (chunks : List (List String)) (acc : List (String × Nat) × List String) (a : String)
    (hmem : a ∈ acc.2 ∨ ∃ b ∈ chunks, a ∈ b) :
    a ∈ (chunks.foldl (chunkStep chain feeOwner) acc).2 := by
  induction chunks generalizing acc with
  | nil =>
    rcases hmem with h1 | ⟨b, hb, _⟩
    · simpa using h1
    · simp at hb
  | cons b rest ih =>
    rcases hmem with h1 | ⟨b', hb', ha'⟩
    · exact ih _ (Or.inl (collectPositive_mem_mono _ acc a h1))
    · rcases List.mem_cons.mp hb' with h2 | h2
      · subst h2
        apply ih
        left
        show a ∈ (chunkStep chain feeOwner acc b').2
        rw [chunkStep, h b', getFees_all_success_one b' (by rintro rfl; simp at ha')]
        have hkey : a ∈ mapKeys (mergeInto [] (b'.map (fun x => (x, 1)))) := by
          apply mem_keys_of_mapGet_isSome
          apply mapGet_mergeInto_isSome_of_mem
          exact List.mem_map.mpr ⟨(a, 1), List.mem_map.mpr ⟨a, ha', rfl⟩, rfl⟩
        obtain ⟨v, hv⟩ := Option.isSome_iff_exists.mp (mapGet_isSome_of_mem_keys _ a hkey)
        have hpair := mem_of_mapGet_eq_some _ a v hv
        have hv1 : v = 1 := by
          rcases mem_mergeInto_cases _ [] (a, v) hpair with h3 | h3
          · simp at h3
          · obtain ⟨x, _, hxe⟩ := List.mem_map.mp h3
            injection hxe with h4 h5
            exact h5.symm
        rw [hv1] at hpair
        exact collectPositive_mem_of_pos _ acc a 1 hpair Nat.one_pos
      · exact ih _ (Or.inr ⟨b', h2, ha'⟩)

theorem countFetches_append (l1 l2 : List RefreshEvent) :
    countFetches (l1 ++ l2) = countFetches l1 + countFetches l2 := by
  simp [countFetches, List.countP_append]

theorem countWaits_append (l1 l2 : List RefreshEvent) :
    countWaits (l1 ++ l2) = countWaits l1 + countWaits l2 := by
  simp [countWaits, List.countP_append]

@[simp] theorem countFetches_nil : countFetches [] = 0 := rfl

@[simp] theorem countWaits_nil : countWaits [] = 0 := rfl

@[simp] theorem countFetches_cons_fetch (f : Bool) (l : List RefreshEvent) :
    countFetches (.fetchTokens f :: l) = countFetches l + 1 := by
  simp [countFetches, List.countP_cons]

@[simp] theorem countFetches_cons_wait (m : Nat) (l : List RefreshEvent) :
    countFetches (.wait m :: l) = countFetches l := by
  simp [countFetches, List.countP_cons]

@[simp] theorem countWaits_cons_fetch (f : Bool) (l : List RefreshEvent) :
    countWaits (.fetchTokens f :: l) = countWaits l := by
  simp [countWaits, List.countP_cons]

@[simp] theorem countWaits_cons_wait (m : Nat) (l : List RefreshEvent) :
    countWaits (.wait m :: l) = countWaits l + 1 := by
  simp [countWaits, List.countP_cons]

theorem refreshLoop_fetch_bound (fetch : Nat → Except Unit TokensResponse)
    (pollForZero forceRefresh : Bool) (intervalMs : Nat) :
    ∀ (remaining attempt : Nat) (qd last : Option TokensResponse),
      countFetches (loopEvents
        (refreshLoop fetch pollForZero forceRefresh intervalMs attempt remaining qd last))
        ≤ remaining := by
  intro remaining
  induction remaining with
  | zero =>
    intro attempt qd last
    simp [refreshLoop, loopEvents]
  | succ r ih =>
    intro attempt qd last
    rw [refreshLoop]
    cases hf : fetch attempt with
    | error e => simp [loopEvents]
    | ok data =>
      by_cases hp : pollForZero
      · subst hp
        by_cases hz : data.totalClaimable.rewards.length = 0
        · simp [hz, loopEvents]
        · cases hrec : refreshLoop fetch true forceRefresh intervalMs (attempt + 1) r
              (some data) (some data) with
          | thrown qd' evs =>
            have hih := ih (attempt + 1) (some data) (some data)
            rw [hrec] at hih
            simp only [loopEvents] at hih
            by_cases hr : 0 < r
            · simp [hrec, hr, hz, loopEvents, countFetches_append]
              omega
            · simp [hrec, hr, hz, loopEvents, countFetches_append]
              omega
          | returned res qd' evs =>
            have hih := ih (attempt + 1) (some data) (some data)
            rw [hrec] at hih
            simp only [loopEvents] at hih
            by_cases hr : 0 < r
            · simp [hrec, hr, hz, loopEvents, countFetches_append]
              omega
            · simp [hrec, hr, hz, loopEvents, countFetches_append]
              omega
      · simp [hp, loopEvents]

theorem refreshLoop_wait_values (fetch : Nat → Except Unit TokensResponse)
    (pollForZero forceRefresh : Bool) (intervalMs : Nat) :
    ∀ (remaining attempt : Nat) (qd last : Option TokensResponse) (m : Nat),
      RefreshEvent.wait m ∈ loopEvents
        (refreshLoop fetch pollForZero forceRefresh intervalMs attempt remaining qd last) →
      m = intervalMs := by
  intro remaining
  induction remaining with
  | zero =>
    intro attempt qd last m hm
    simp [refreshLoop, loopEvents] at hm
  | succ r ih =>
    intro attempt qd last m hm
    rw [refreshLoop] at hm
    cases hf : fetch attempt with
    | error e =>
      rw [hf] at hm
      simp [loopEvents] at hm
    | ok data =>
      rw [hf] at hm
      by_cases hp : pollForZero
      · subst hp
        by_cases hz : data.totalClaimable.rewards.length = 0
        · simp [hz, loopEvents] at hm
        · cases hrec : refreshLoop fetch true forceRefresh intervalMs (attempt + 1) r
              (some data) (some data) with
          | thrown qd' evs =>
            by_cases hr : 0 < r
            · simp [hrec, hr, hz, loopEvents] at hm
              rcases hm with h1 | h1
              · exact h1
              · exact ih (attempt + 1) (some data) (some data) m (by rw [hrec]; simpa [loopEvents])
            · simp [hrec, hr, hz, loopEvents] at hm
              exact ih (attempt + 1) (some data) (some data) m (by rw [hrec]; simpa [loopEvents])
          | returned res qd' evs =>
            by_cases hr : 0 < r
            · simp [hrec, hr, hz, loopEvents] at hm
              rcases hm with h1 | h1
              · exact h1
              · exact ih (attempt + 1) (some data) (some data) m (by rw [hrec]; simpa [loopEvents])
            · simp [hrec, hr, hz, loopEvents] at hm
              exact ih (attempt + 1) (some data) (some data) m (by rw [hrec]; simpa [loopEvents])
      · simp [hp, loopEvents] at hm

theorem refreshLoop_first_zero (fetch : Nat → Except Unit TokensResponse)
    (forceRefresh : Bool) (intervalMs : Nat) :
    ∀ (remaining attempt j : Nat) (data : TokensResponse) (qd last : Option TokensResponse),
      attempt ≤ j → j < attempt + remaining →
      (∀ i, attempt ≤ i → i < j →
        ∃ d, fetch i = .ok d ∧ d.totalClaimable.rewards.length ≠ 0) →
      fetch j = .ok data → data.totalClaimable.rewards.length = 0 →
      ∃ evs, refreshLoop fetch true forceRefresh intervalMs attempt remaining qd last
          = .returned (some data) (some data) evs
        ∧ countFetches evs = j - attempt + 1 ∧ countWaits evs = j - attempt := by
  intro remaining
  induction remaining with
  | zero =>
    intro attempt j data qd last hle hlt _ _ _
    omega
  | succ r ih =>
    intro attempt j data qd last hle hlt hpre hj hz
    by_cases hja : j = attempt
    · subst hja
      refine ⟨[.fetchTokens forceRefresh], ?_, ?_, ?_⟩
      · rw [refreshLoop, hj]
        simp [hz]
      · simp
      · simp
    · have hja' : attempt < j := lt_of_le_of_ne hle (Ne.symm hja)
      obtain ⟨d, hd, hnz⟩ := hpre attempt le_rfl hja'
      have hr : 0 < r := by omega
      obtain ⟨evs, heq, hcf, hcw⟩ := ih (attempt + 1) j data (some d) (some d)
        (by omega) (by omega) (fun i h1 h2 => hpre i (by omega) h2) hj hz
      refine ⟨[.fetchTokens forceRefresh, .wait intervalMs] ++ evs, ?_, ?_, ?_⟩
      · rw [refreshLoop, hd]
        simp [hnz, hr, heq]
      · rw [countFetches_append, hcf]
        simp
        omega
      · rw [countWaits_append, hcw]
        simp
        omega

theorem refreshLoop_exhaustion (fetch : Nat → Except Unit TokensResponse)
    (forceRefresh : Bool) (intervalMs : Nat) :
    ∀ (remaining attempt : Nat) (qd last : Option TokensResponse),
      0 < remaining →
      (∀ i, attempt ≤ i → i < attempt + remaining →
        ∃ d, fetch i = .ok d ∧ d.totalClaimable.rewards.length ≠ 0) →
      ∃ d evs, fetch (attempt + remaining - 1) = .ok d
        ∧ refreshLoop fetch true forceRefresh intervalMs attempt remaining qd last
            = .returned (some d) (some d) evs
        ∧ countFetches evs = remaining ∧ countWaits evs = remaining - 1 := by
  intro remaining
  induction remaining with
  | zero =>
    intro attempt qd last hpos _
    omega
  | succ r ih =>
    intro attempt qd last _ hall
    obtain ⟨d, hd, hnz⟩ := hall attempt le_rfl (by omega)
    by_cases hr : 0 < r
    · obtain ⟨d', evs, hd', heq, hcf, hcw⟩ := ih (attempt + 1) (some d) (some d) hr
        (fun i h1 h2 => hall i (by omega) (by omega))
      refine ⟨d', [.fetchTokens forceRefresh, .wait intervalMs] ++ evs, ?_, ?_, ?_, ?_⟩
      · have harith : attempt + (r + 1) - 1 = attempt + 1 + r - 1 := by omega
        rw [harith]
        exact hd'
      · rw [refreshLoop, hd]
        simp [hnz, hr, heq]
      · rw [countFetches_append, hcf]
        simp
        omega
      · rw [countWaits_append, hcw]
        simp
        omega
    · have hr0 : r = 0 := by omega
      subst hr0
      refine ⟨d, [.fetchTokens forceRefresh], ?_, ?_, ?_, ?_⟩
      · simpa using hd
      · rw [refreshLoop, hd]
        simp [hnz, refreshLoop]
      · simp
      · simp

theorem refresh_admitted_returned (fetch : Nat → Except Unit TokensResponse) (w : String)
    (opts : RefreshOptions) (st : RefreshState) (hlock : st.refreshLock = false)
    (res qd : Option TokensResponse) (evs : List RefreshEvent)
    (h : refreshLoop fetch opts.pollForZero opts.forceRefresh opts.intervalMs 1
      (if opts.pollForZero then opts.maxRetries else 1) none none = .returned res qd evs) :
    refreshClaimableRewards fetch (some w) opts st
      = (res, { refreshLock := false, queryData := qd }, evs) := by
  simp [refreshClaimableRewards, hlock, h]

theorem refresh_events_eq (fetch : Nat → Except Unit TokensResponse) (w : String)
    (opts : RefreshOptions) (st : RefreshState) (hlock : st.refreshLock = false) :
    (refreshClaimableRewards fetch (some w) opts st).2.2
      = loopEvents (refreshLoop fetch opts.pollForZero opts.forceRefresh opts.intervalMs 1
          (if opts.pollForZero then opts.maxRetries else 1) none none) := by
  cases hl : refreshLoop fetch opts.pollForZero opts.forceRefresh opts.intervalMs 1
      (if opts.pollForZero then opts.maxRetries else 1) none none with
  | thrown qd evs => simp [refreshClaimableRewards, hlock, hl, loopEvents]
  | returned res qd evs => simp [refreshClaimableRewards, hlock, hl, loopEvents]

/-! ## Claim theorems -/

/-- **C1 (counterexample).** At a concrete owner and token address the
builder's `data` field is the empty string — not an encoded batched-claim
payload (an ABI-encoded call is a nonempty `0x`-prefixed hex string). -/
theorem getClaimCalldata_data_empty :
    (getClaimCalldata "0x1111111111111111111111111111111111111111"
        "0x2222222222222222222222222222222222222222").data = ""
    ∧ ((getClaimCalldata "0x1111111111111111111111111111111111111111"
        "0x2222222222222222222222222222222222222222").data.startsWith "0x") = false :=
  ⟨rfl, by decide⟩

/-- **C1 (amended).** The claim-call builder is a pure function of
`(owner, tokenAddress)` whose `to` field is the fee-locker contract
address; it carries the claim call as `functionName` and `args` while its
`data` field is the empty string — the ABI encoding is left to the
client-side transaction builder, so `data` is not the encoded payload. -/
theorem getClaimCalldata_shape (feeOwner tokenAddress : String) :
    (getClaimCalldata feeOwner tokenAddress).«to» = CLANKER_FEE_LOCKER_ADDRESS
    ∧ (getClaimCalldata feeOwner tokenAddress).functionName = "claim"
    ∧ (getClaimCalldata feeOwner tokenAddress).args = (feeOwner, tokenAddress)
    ∧ (getClaimCalldata feeOwner tokenAddress).data = "" :=
  ⟨rfl, rfl, rfl, rfl⟩

/-- **C2.** `getTotalClaimable` reads balances over the candidate list
with the wrapped-native (WETH) address appended unconditionally (the
chunks scanned flatten back to `tokenAddresses ++ [WETH_ADDRESS]`, and
under a chain reporting a positive fee everywhere WETH always surfaces in
the result); in the returned snapshot every reward has a strictly
positive amount and `tokenAddresses` is exactly the sequence of addresses
appearing in `rewards`. -/
theorem getTotalClaimable_invariants
    (chain : String → List String → MulticallResponse)
    (metadata : String → TokenMetadata) (fmt : Nat → Nat → String)
    (feeOwner : String) (tokenAddresses : List String) :
    (∀ r ∈ (getTotalClaimable chain metadata fmt feeOwner tokenAddresses).rewards, 0 < r.amount)
    ∧ (getTotalClaimable chain metadata fmt feeOwner tokenAddresses).tokenAddresses
        = (getTotalClaimable chain metadata fmt feeOwner tokenAddresses).rewards.map
            RewardAsset.address
    ∧ (chunkList (tokenAddresses ++ [WETH_ADDRESS])).flatten = tokenAddresses ++ [WETH_ADDRESS]
    ∧ ((∀ b, chain feeOwner b = .ok (b.map fun _ => CallResult.success 1)) →
        WETH_ADDRESS ∈ (getTotalClaimable chain metadata fmt feeOwner tokenAddresses).tokenAddresses) := by
  refine ⟨?_, ?_, chunkList_flatten _, ?_⟩
  · intro r hr
    simp only [getTotalClaimable, List.mem_map] at hr
    obtain ⟨a, ha, rfl⟩ := hr
    obtain ⟨v, hv, hvpos⟩ :=
      chunkFold_inv chain feeOwner (chunkList (tokenAddresses ++ [WETH_ADDRESS])) ([], [])
        (fun x hx => by simp at hx) a ha
    simpa [hv] using hvpos
  · simp only [getTotalClaimable]
    rw [List.map_map]
    exact (List.map_id _).symm
  · intro h
    simp only [getTotalClaimable]
    apply chunkFold_mem_of_oracle_pos chain feeOwner h _ ([], []) WETH_ADDRESS
    right
    apply List.mem_flatten.mp
    rw [chunkList_flatten]
    simp

/-- **C2 (witness).** A concrete run through `getTotalClaimable` with an
all-positive chain: WETH shows up in the returned address list. -/
theorem getTotalClaimable_invariants_witness :
    WETH_ADDRESS ∈ (getTotalClaimable
      (fun _ b => .ok (b.map fun _ => CallResult.success 1))
      (fun _ => { symbol := "TKN", decimals := 18 }) (fun _ _ => "1")
      "0xowner" ["0xaaaaaaaaaaaaaaaaaaaaaaaaaaaaaaaaaaaaaaaa"]).tokenAddresses :=
  (getTotalClaimable_invariants
    (fun _ b => .ok (b.map fun _ => CallResult.success 1))
    (fun _ => { symbol := "TKN", decimals := 18 }) (fun _ _ => "1")
    "0xowner" ["0xaaaaaaaaaaaaaaaaaaaaaaaaaaaaaaaaaaaaaaaa"]).2.2.2 (fun b => rfl)

/-- **C7.** The aggregation partitions the address list into consecutive
chunks of at most `MULTICALL_BATCH_SIZE = 500` addresses (their
concatenation restores the input), and the union of the per-chunk result
mappings assigns an amount to every input address with duplicate-free
keys — every input address is covered exactly once. -/
theorem chunking_partitions_and_covers
    (chain : String → List String → MulticallResponse) (feeOwner : String)
    (addrs : List String)
    (hlen : ∀ b rs, chain feeOwner b = .ok rs → rs.length = b.length) :
    (chunkList addrs).flatten = addrs
    ∧ (∀ c ∈ chunkList addrs, c.length ≤ MULTICALL_BATCH_SIZE)
    ∧ (∀ a ∈ addrs, (mapGet (mergedChunkResults chain feeOwner addrs) a).isSome)
    ∧ (mapKeys (mergedChunkResults chain feeOwner addrs)).Nodup := by
  refine ⟨chunkList_flatten addrs, chunkList_length_le addrs, ?_, ?_⟩
  · intro a ha
    rw [mergedChunkResults]
    apply mergedChunk_fold_isSome chain feeOwner hlen
    right
    apply List.mem_flatten.mp
    rw [chunkList_flatten]
    exact ha
  · rw [mergedChunkResults]
    exact mergedChunk_fold_keys_nodup chain feeOwner _ [] (by simp [mapKeys])

/-- **C7 (witness).** A concrete merged result covers a concrete input
address. -/
theorem chunking_partitions_and_covers_witness :
    (mapGet (mergedChunkResults (fun _ b => .ok (b.map fun _ => CallResult.success 0))
      "0xowner" ["0xaaa", "0xbbb"]) "0xbbb").isSome :=
  (chunking_partitions_and_covers (fun _ b => .ok (b.map fun _ => CallResult.success 0))
    "0xowner" ["0xaaa", "0xbbb"]
    (fun b rs h => by injection h with h'; rw [← h']; simp)).2.2.1 "0xbbb" (by simp)

/-- **C10.** The WETH-specific claim builder is the generic claim builder
specialised at the wrapped-native token address. -/
theorem getClaimWethCalldata_eq_getClaimCalldata (feeOwner : String) :
    getClaimWethCalldata feeOwner = getClaimCalldata feeOwner WETH_ADDRESS := rfl

/-- **C3.** While a refresh is in flight (guard set), a second call
returns `null` immediately with no fetch event and without altering the
state, the stored result included; and every admitted refresh — whatever
the loop's outcome: success, poll exhaustion, or a thrown fetch — leaves
the single-flight guard `false`. -/
theorem refresh_single_flight (fetch : Nat → Except Unit TokensResponse)
    (walletAddress : Option String) (opts : RefreshOptions) (st : RefreshState) :
    (st.refreshLock = true →
      refreshClaimableRewards fetch walletAddress opts st = (none, st, []))
    ∧ (∀ w, walletAddress = some w → st.refreshLock = false →
        (refreshClaimableRewards fetch walletAddress opts st).2.1.refreshLock = false) := by
  constructor
  · intro hlock
    match walletAddress with
    | none => rfl
    | some w => simp [refreshClaimableRewards, hlock]
  · intro w hw hlock
    subst hw
    cases hl : refreshLoop fetch opts.pollForZero opts.forceRefresh opts.intervalMs 1
        (if opts.pollForZero then opts.maxRetries else 1) none none with
    | thrown qd evs => simp [refreshClaimableRewards, hlock, hl]
    | returned res qd evs => simp [refreshClaimableRewards, hlock, hl]

/-- **C3 (witness).** A locked state rejects the call unchanged; an
admitted run (here one that throws at the first fetch) releases the
guard. -/
theorem refresh_single_flight_witness :
    refreshClaimableRewards (fun _ => .error ()) (some "0xw")
        ({ } : RefreshOptions) { refreshLock := true, queryData := none }
      = (none, { refreshLock := true, queryData := none }, [])
    ∧ (refreshClaimableRewards (fun _ => .error ()) (some "0xw")
        ({ } : RefreshOptions) { refreshLock := false, queryData := none }).2.1.refreshLock
      = false :=
  ⟨(refresh_single_flight (fun _ => .error ()) (some "0xw") { } _).1 rfl,
   (refresh_single_flight (fun _ => .error ()) (some "0xw") { } _).2 "0xw" rfl rfl⟩

/-- **C4.** In poll-until-zero mode an admitted refresh performs at most
`maxRetries` fetches (default 6), every inter-attempt wait lasts
`intervalMs` (default 2500); the first fetched snapshot with zero
claimable rewards is returned with exactly that many fetches and one
fewer waits, and if every attempt yields nonzero rewards the last fetched
snapshot is returned rather than an error. -/
theorem refresh_poll_until_zero (fetch : Nat → Except Unit TokensResponse)
    (w : String) (opts : RefreshOptions) (st : RefreshState)
    (hlock : st.refreshLock = false) (hpoll : opts.pollForZero = true) :
    (({ } : RefreshOptions).maxRetries = 6 ∧ ({ } : RefreshOptions).intervalMs = 2500)
    ∧ countFetches (refreshClaimableRewards fetch (some w) opts st).2.2 ≤ opts.maxRetries
    ∧ (∀ m, RefreshEvent.wait m ∈ (refreshClaimableRewards fetch (some w) opts st).2.2 →
        m = opts.intervalMs)
    ∧ (∀ j data, 1 ≤ j → j ≤ opts.maxRetries →
        (∀ i, 1 ≤ i → i < j →
          ∃ d, fetch i = .ok d ∧ d.totalClaimable.rewards.length ≠ 0) →
        fetch j = .ok data → data.totalClaimable.rewards.length = 0 →
        (refreshClaimableRewards fetch (some w) opts st).1 = some data
        ∧ countFetches (refreshClaimableRewards fetch (some w) opts st).2.2 = j
        ∧ countWaits (refreshClaimableRewards fetch (some w) opts st).2.2 = j - 1)
    ∧ (1 ≤ opts.maxRetries →
        (∀ i, 1 ≤ i → i ≤ opts.maxRetries →
          ∃ d, fetch i = .ok d ∧ d.totalClaimable.rewards.length ≠ 0) →
        ∃ d, fetch opts.maxRetries = .ok d
          ∧ (refreshClaimableRewards fetch (some w) opts st).1 = some d) := by
  refine ⟨⟨rfl, rfl⟩, ?_, ?_, ?_, ?_⟩
  · rw [refresh_events_eq fetch w opts st hlock]
    have := refreshLoop_fetch_bound fetch opts.pollForZero opts.forceRefresh opts.intervalMs
      (if opts.pollForZero then opts.maxRetries else 1) 1 none none
    rw [hpoll] at this ⊢
    simpa using this
  · intro m hm
    rw [refresh_events_eq fetch w opts st hlock] at hm
    exact refreshLoop_wait_values fetch opts.pollForZero opts.forceRefresh opts.intervalMs
      (if opts.pollForZero then opts.maxRetries else 1) 1 none none m hm
  · intro j data hj1 hj2 hpre hj hz
    obtain ⟨evs, heq, hcf, hcw⟩ := refreshLoop_first_zero fetch opts.forceRefresh
      opts.intervalMs opts.maxRetries 1 j data none none hj1 (by omega) hpre hj hz
    have heq' : refreshLoop fetch opts.pollForZero opts.forceRefresh opts.intervalMs 1
        (if opts.pollForZero then opts.maxRetries else 1) none none
        = .returned (some data) (some data) evs := by
      rw [hpoll]
      simpa using heq
    have hglue := refresh_admitted_returned fetch w opts st hlock
      (some data) (some data) evs heq'
    rw [hglue]
    refine ⟨rfl, ?_, ?_⟩
    · simpa [hcf] using (by omega : j - 1 + 1 = j)
    · simpa using hcw
  · intro hpos hall
    obtain ⟨d, evs, hd, heq, _, _⟩ := refreshLoop_exhaustion fetch opts.forceRefresh
      opts.intervalMs opts.maxRetries 1 none none hpos
      (fun i h1 h2 => hall i h1 (by omega))
    have hd' : fetch opts.maxRetries = .ok d := by
      have harith : 1 + opts.maxRetries - 1 = opts.maxRetries := by omega
      rwa [harith] at hd
    have heq' : refreshLoop fetch opts.pollForZero opts.forceRefresh opts.intervalMs 1
        (if opts.pollForZero then opts.maxRetries else 1) none none
        = .returned (some d) (some d) evs := by
      rw [hpoll]
      simpa using heq
    have hglue := refresh_admitted_returned fetch w opts st hlock
      (some d) (some d) evs heq'
    exact ⟨d, hd', by rw [hglue]⟩

/-- **C4 (witness).** The spec's scenario: `maxRetries = 3`, the first
two fetches return one nonzero reward and the third returns zero — the
controller returns the empty snapshot after exactly 3 fetches and 2
inter-attempt waits. -/
theorem refresh_poll_until_zero_witness :
    (refreshClaimableRewards scenarioFetch (some "0xw")
        { pollForZero := true, maxRetries := 3 }
        { refreshLock := false, queryData := none }).1 = some emptyTokensResponse
    ∧ countFetches (refreshClaimableRewards scenarioFetch (some "0xw")
        { pollForZero := true, maxRetries := 3 }
        { refreshLock := false, queryData := none }).2.2 = 3
    ∧ countWaits (refreshClaimableRewards scenarioFetch (some "0xw")
        { pollForZero := true, maxRetries := 3 }
        { refreshLock := false, queryData := none }).2.2 = 3 - 1 :=
  (refresh_poll_until_zero scenarioFetch "0xw"
    { pollForZero := true, maxRetries := 3 }
    { refreshLock := false, queryData := none } rfl rfl).2.2.2.1 3 emptyTokensResponse
    (by omega) (by decide)
    (fun i h1 h2 => ⟨oneRewardResponse,
      by simp [scenarioFetch, show ¬ 3 ≤ i by omega],
      by simp [oneRewardResponse]⟩)
    (by simp [scenarioFetch]) rfl

/-- **C6.** The batched balance read never propagates an error: if the
whole multicall throws transport-level, every address of the chunk is
assigned zero; within a successful multicall each item assigns its raw
result on success and zero on per-item failure (stated for duplicate-free
chunks). -/
theorem getFees_failure_isolation (mc : MulticallResponse)
    (tokenAddresses : List String) (hnodup : tokenAddresses.Nodup) :
    (∀ e, mc = .error e → ∀ a ∈ tokenAddresses,
      mapGet (getFeesForAddressesMulticall mc tokenAddresses) a = some 0)
    ∧ (∀ rs, mc = .ok rs → rs.length = tokenAddresses.length →
      ∀ p ∈ rs.zip tokenAddresses,
        mapGet (getFeesForAddressesMulticall mc tokenAddresses) p.2
          = some (amountOfResult p.1)) := by
  constructor
  · intro e hmc a ha
    subst hmc
    rw [getFeesForAddressesMulticall]
    have hne : tokenAddresses.isEmpty = false := by
      cases tokenAddresses with
      | nil => simp at ha
      | cons x xs => simp
    simp only [hne]
    apply mapGet_mergeInto_of_nodup
    · have hkeys : (tokenAddresses.map (fun a => (a, 0))).map Prod.fst = tokenAddresses := by
        rw [List.map_map]
        exact List.map_id _
      rw [hkeys]
      exact hnodup
    · exact List.mem_map.mpr ⟨a, ha, rfl⟩
  · intro rs hmc hlen p hp
    subst hmc
    rw [getFeesForAddressesMulticall]
    have hne : tokenAddresses.isEmpty = false := by
      cases tokenAddresses with
      | nil => simp at hp
      | cons x xs => simp
    simp only [hne]
    apply mapGet_mergeInto_of_nodup
    · have hkeys : ((rs.zip tokenAddresses).map
          (fun q => (q.2, amountOfResult q.1))).map Prod.fst = tokenAddresses := by
        rw [List.map_map]
        have := List.map_snd_zip rs tokenAddresses (by omega)
        simpa using this
      rw [hkeys]
      exact hnodup
    · exact List.mem_map.mpr ⟨p, hp, rfl⟩

/-- **C6 (witness).** A transport failure assigns zero, and within a
successful batch a failed item assigns zero while the successful one
keeps its raw value. -/
theorem getFees_failure_isolation_witness :
    mapGet (getFeesForAddressesMulticall (.error ()) ["0xa", "0xb"]) "0xa" = some 0
    ∧ mapGet (getFeesForAddressesMulticall
        (.ok [CallResult.success 7, CallResult.failure]) ["0xa", "0xb"]) "0xb" = some 0
    ∧ mapGet (getFeesForAddressesMulticall
        (.ok [CallResult.success 7, CallResult.failure]) ["0xa", "0xb"]) "0xa" = some 7 :=
  ⟨(getFees_failure_isolation (.error ()) ["0xa", "0xb"] (by decide)).1 () rfl "0xa"
      (by decide),
   (getFees_failure_isolation (.ok [CallResult.success 7, CallResult.failure])
      ["0xa", "0xb"] (by decide)).2 [CallResult.success 7, CallResult.failure] rfl rfl
      (CallResult.failure, "0xb") (by decide),
   (getFees_failure_isolation (.ok [CallResult.success 7, CallResult.failure])
      ["0xa", "0xb"] (by decide)).2 [CallResult.success 7, CallResult.failure] rfl rfl
      (CallResult.success 7, "0xa") (by decide)⟩

/-- **C8.** A `get` within the 60-second TTL of a `put` (here: a
force-refreshed request that fetched and stored `data` at time `t`)
returns the stored snapshot without consulting the upstream feed — for
any feed; and both invalidation paths, `POST /api/cache/invalidate` and
the `refresh=true` flag, force the next read to consult the feed again. -/
theorem cache_ttl_and_invalidate
    (fetchTokens fetchTokens' : String → Except Unit TokensResponse)
    (t t' : Nat) (w : String) (data : TokensResponse) (cache : TokenCache)
    (hfetch : fetchTokens w = .ok data) (httl : t' - t < CACHE_TTL) :
    (handleGetTokens fetchTokens' t' (some w) false
        (handleGetTokens fetchTokens t (some w) true cache).2.1
      = (data, (handleGetTokens fetchTokens t (some w) true cache).2.1, false))
    ∧ (handleGetTokens fetchTokens' t' (some w) false
        (handleInvalidate (some w) cache)).2.2 = true
    ∧ (handleGetTokens fetchTokens' t' (some w) true cache).2.2 = true := by
  refine ⟨?_, ?_, ?_⟩
  · have hput : (handleGetTokens fetchTokens t (some w) true cache).2.1
        = mapSet (mapDelete cache (toLowerCase w)) (toLowerCase w) { data := data, timestamp := t } := by
      simp [handleGetTokens, hfetch]
    rw [hput]
    simp [handleGetTokens, mapGet_mapSet_self, httl]
  · cases hf : fetchTokens' w with
    | ok d => simp [handleGetTokens, handleInvalidate, mapGet_mapDelete_self, hf]
    | error e => simp [handleGetTokens, handleInvalidate, mapGet_mapDelete_self, hf]
  · cases hf : fetchTokens' w with
    | ok d => simp [handleGetTokens, hf]
    | error e => simp [handleGetTokens, hf]

/-- **C8 (witness).** After a put at time 0 a read at time 1000 returns
the stored snapshot even though its own feed would fail. -/
theorem cache_ttl_and_invalidate_witness :
    handleGetTokens (fun _ => .error ()) 1000 (some "0xW") false
        (handleGetTokens (fun _ => .ok emptyTokensResponse) 0 (some "0xW") true []).2.1
      = (emptyTokensResponse,
         (handleGetTokens (fun _ => .ok emptyTokensResponse) 0 (some "0xW") true []).2.1,
         false) :=
  (cache_ttl_and_invalidate (fun _ => .ok emptyTokensResponse) (fun _ => .error ())
    0 1000 "0xW" emptyTokensResponse [] rfl (by decide)).1

/-- **C9.** Metadata resolution never surfaces an error: on a failed read
it returns the fallback (first 8 characters of the address, 18 decimals)
without writing it into the cache, so a later call retries; the WETH
address resolves from the hard-coded value independently of the network
oracle (and is cached); a successful resolution is cached under the
lower-cased address. -/
theorem getTokenMetadata_degrades (oracle : String → MetadataResponse)
    (cache : List (String × TokenMetadata)) (address : String)
    (hmiss : mapGet cache (toLowerCase address) = none) :
    ((toLowerCase address) ≠ (toLowerCase WETH_ADDRESS) → oracle address = .error () →
      getTokenMetadata oracle cache address
        = ({ symbol := address.take 8, decimals := 18 }, cache))
    ∧ ((toLowerCase address) = (toLowerCase WETH_ADDRESS) →
      ∀ oracle', getTokenMetadata oracle' cache address
        = ({ symbol := "WETH", decimals := 18 },
           mapSet cache (toLowerCase address) { symbol := "WETH", decimals := 18 }))
    ∧ ((toLowerCase address) ≠ (toLowerCase WETH_ADDRESS) →
      ∀ symbol decimals, oracle address = .ok (symbol, decimals) →
      getTokenMetadata oracle cache address
        = ({ symbol := symbol, decimals := decimals },
           mapSet cache (toLowerCase address) { symbol := symbol, decimals := decimals })) := by
  refine ⟨?_, ?_, ?_⟩
  · intro hw ho
    simp [getTokenMetadata, hmiss, hw, ho]
  · intro hw oracle'
    have hmiss' : mapGet cache (toLowerCase WETH_ADDRESS) = none := by
      rw [← hw]
      exact hmiss
    simp [getTokenMetadata, hmiss, hmiss', hw]
  · intro hw symbol decimals ho
    simp [getTokenMetadata, hmiss, hw, ho]

/-- **C9 (witness).** A failing oracle yields the 8-character fallback
and leaves the cache empty. -/
theorem getTokenMetadata_degrades_witness :
    getTokenMetadata (fun _ => .error ()) [] "0xDEADBEEF12"
      = ({ symbol := String.take "0xDEADBEEF12" 8, decimals := 18 }, []) :=
  (getTokenMetadata_degrades (fun _ => .error ()) [] "0xDEADBEEF12" rfl).1
    (by decide) rfl

end Proofs

end Claim2
